import Mathlib

set_option maxHeartbeats 4000000
set_option maxRecDepth 4000

/-
Shallow embedding of the mixed-notation text segmenter implemented by
`render_text_with_latex` in app.py.  Text is modelled as `List Char`;
the Streamlit rendering surface is modelled as an abstract oracle
`ok : List Char → Bool` telling whether the math primitive accepts a
formula, and the pipeline's output is the ordered list of render calls.
-/

/-- Whitespace test: the characters matched by Python's regex class `\s`
(restricted to its ASCII members, which are the only ones occurring in the
inputs considered here). -/
def isWs (c : Char) : Bool :=
  c == ' ' || c == '\t' || c == '\n' || c == '\r' || c == '\x0b' || c == '\x0c'

/-- Function `has_real_content` from app.py: delete every whitespace character
(`re.sub(r'\s+', '', s)`) and test that the residue is non-empty. -/
def has_real_content (l : List Char) : Bool :=
  !(l.filter (fun c => !(isWs c))).isEmpty

/-- Python `str.strip()`: drop whitespace from both ends. -/
def stripChars (l : List Char) : List Char :=
  ((l.dropWhile isWs).reverse.dropWhile isWs).reverse

/-- Python slice `text[a:b]`. -/
def sliceChars (cs : List Char) (a b : Nat) : List Char :=
  (cs.drop a).take (b - a)

/-- Character at an index, with a NUL sentinel out of range (every use is
guarded by an explicit bounds check). -/
def gch (cs : List Char) (i : Nat) : Char := cs.getD i (Char.ofNat 0)

def strC (s : String) : List Char := s.data

/- ### Normalizer (app.py lines 28-34)
`line = re.sub(r'\\(\\+)([\[\(])', r'\1\2', line)` applied to every line of
`text.split('\n')`, re-joined with newlines. -/

/-- Number of leading backslashes. -/
def leadBS : List Char → Nat
  | [] => 0
  | c :: r => if c == '\\' then leadBS r + 1 else 0

/-- One `re.sub` scan for the pattern `\\(\\+)([\[\(])`: at each position
try to match a backslash, one or more further backslashes, then `[` or `(`;
on a match emit the run shortened by the leading backslash and resume after
the bracket, otherwise copy one character.  Fuelled by the input length
(each step consumes at least one character). -/
def reSubFuel : Nat → List Char → List Char
  | 0, l => l
  | _ + 1, [] => []
  | fuel + 1, c :: r =>
    if c == '\\' && decide (1 ≤ leadBS r) then
      match r.drop (leadBS r) with
      | b :: r2 =>
        if b == '[' || b == '(' then
          List.replicate (leadBS r) '\\' ++ b :: reSubFuel fuel r2
        else c :: reSubFuel fuel r
      | [] => c :: reSubFuel fuel r
    else c :: reSubFuel fuel r

def reSubLine (l : List Char) : List Char := reSubFuel l.length l

/-- Python `text.split('\n')`. -/
def splitNl : List Char → List (List Char)
  | [] => [[]]
  | c :: r =>
    if c == '\n' then [] :: splitNl r
    else
      match splitNl r with
      | l :: ls => (c :: l) :: ls
      | [] => [[c]]

/-- Python `'\n'.join(lines)`. -/
def joinNl : List (List Char) → List Char
  | [] => []
  | [l] => l
  | l :: ls => l ++ '\n' :: joinNl ls

def normalizeText (cs : List Char) : List Char :=
  joinNl ((splitNl cs).map reSubLine)

/-- Spec-side formulation of the normalization rule, from the words of the
specification: every maximal run of two or more consecutive backslashes that
is directly followed by `[` or `(` is reduced by exactly one backslash, and
nothing else changes.  `p` counts the pending backslashes of the current
run. -/
def runReduce (p : Nat) : List Char → List Char
  | [] => List.replicate p '\\'
  | c :: r =>
    if c == '\\' then runReduce (p + 1) r
    else if (c == '[' || c == '(') && decide (2 ≤ p) then
      List.replicate (p - 1) '\\' ++ c :: runReduce 0 r
    else List.replicate p '\\' ++ c :: runReduce 0 r

/- ### MatchScanner (app.py lines 36-73)
Four `re.finditer` loops, embedded as explicit left-to-right scanners. -/

/-- Two given characters at positions `i`, `i+1`, in range. -/
def isAt2 (cs : List Char) (len : Nat) (c1 c2 : Char) (i : Nat) : Bool :=
  decide (i + 1 < len) && gch cs i == c1 && gch cs (i + 1) == c2

/-- Non-greedy search for the closing delimiter `c1 c2`: at each position
first try to close, then consume one content character (any character when
`dotAll`, otherwise any character except a newline), else fail.  This is the
backtracking behaviour of `((?:(?!CLOSE).|\n)+?)CLOSE` after the first
content character has been consumed. -/
def walkClose (cs : List Char) (len : Nat) (c1 c2 : Char) (dotAll : Bool) :
    Nat → Nat → Option Nat
  | 0, _ => none
  | fuel + 1, q =>
    if isAt2 cs len c1 c2 q then some q
    else if decide (q < len) && (dotAll || gch cs q != '\n') then
      walkClose cs len c1 c2 dotAll fuel (q + 1)
    else none

/-- Match attempt at position `i` for a two-character open / two-character
close delimiter pair with non-empty, non-greedy content (families
`$$…$$`, `\[…\]`, `\(…\)`).  Returns `(closePos, matchEnd)`. -/
def tryPair (cs : List Char) (len : Nat) (o1 o2 c1 c2 : Char) (dotAll : Bool)
    (i : Nat) : Option (Nat × Nat) :=
  if isAt2 cs len o1 o2 i && !(isAt2 cs len c1 c2 (i + 2)) then
    match walkClose cs len c1 c2 dotAll (len + 1) (i + 2) with
    | some j => some (j, j + 2)
    | none => none
  else none

/-- Opening of the inline-dollar family `(?<!\$)\$(?![$])`: a `$` neither
preceded nor followed by `$`. -/
def open3 (cs : List Char) (len : Nat) (i : Nat) : Bool :=
  decide (i < len) && gch cs i == '$' &&
    (i == 0 || gch cs (i - 1) != '$') &&
    (decide (len ≤ i + 1) || gch cs (i + 1) != '$')

/-- Closing of the inline-dollar family `\$(?!\$)`. -/
def close3 (cs : List Char) (len : Nat) (q : Nat) : Bool :=
  decide (q < len) && gch cs q == '$' && (decide (len ≤ q + 1) || gch cs (q + 1) != '$')

/-- Non-greedy walk for family 3: close first, else consume a content
character (anything except a newline; a `$` that is followed by another `$`
passes the content lookahead `(?!\$[^$]|$$)`). -/
def walk3 (cs : List Char) (len : Nat) : Nat → Nat → Option Nat
  | 0, _ => none
  | fuel + 1, q =>
    if close3 cs len q then some q
    else if decide (q < len) && gch cs q != '\n' then walk3 cs len fuel (q + 1)
    else none

/-- Match attempt at position `i` for `(?<!\$)\$(?![$])((?:(?!\$[^$]|$$).)+?)\$(?!\$)`.
Returns `(closePos, matchEnd)`. -/
def try3 (cs : List Char) (len : Nat) (i : Nat) : Option (Nat × Nat) :=
  if open3 cs len i && decide (i + 1 < len) && gch cs (i + 1) != '\n' then
    match walk3 cs len (len + 1) (i + 2) with
    | some q => some (q, q + 1)
    | none => none
  else none

/-- The `re.finditer` loop: try a match at every position, left to right; after a
match resume at its end (matches never overlap).  Yields
`(start, closePos, end)` triples.  Fuelled by `len + 1`. -/
def scanAll (tryM : Nat → Option (Nat × Nat)) : Nat → Nat → List (Nat × Nat × Nat)
  | 0, _ => []
  | fuel + 1, i =>
    match tryM i with
    | some (j, e) => (i, j, e) :: scanAll tryM fuel e
    | none => scanAll tryM fuel (i + 1)

inductive MKind where
  | mblock
  | minline
deriving DecidableEq

structure Span where
  start : Nat
  stop : Nat
  kind : MKind
  content : List Char
deriving DecidableEq

/-- Test `any(m_start <= start < m_end for ...)`. -/
def isInside (acc : List Span) (s : Nat) : Bool :=
  acc.any (fun m => decide (m.start ≤ s) && decide (s < m.stop))

/-- Family 1, `$$…$$` (app.py lines 39-43): keep matches whose stripped
content is non-empty. -/
def fam1Collect (cs : List Char) (len : Nat) : List Span :=
  (scanAll (tryPair cs len '$' '$' '$' '$' true) (len + 1) 0).foldl
    (fun acc m =>
      let f := stripChars (sliceChars cs (m.1 + 2) m.2.1)
      if !f.isEmpty then acc ++ [⟨m.1, m.2.2, MKind.mblock, f⟩] else acc) []

/-- Family 2, `\[…\]` (app.py lines 45-53): skip matches starting inside an
already collected span; keep non-empty stripped content. -/
def addFam2 (cs : List Char) (len : Nat) (acc0 : List Span) : List Span :=
  (scanAll (tryPair cs len '\\' '[' '\\' ']' true) (len + 1) 0).foldl
    (fun acc m =>
      if isInside acc m.1 then acc
      else
        let f := stripChars (sliceChars cs (m.1 + 2) m.2.1)
        if !f.isEmpty then acc ++ [⟨m.1, m.2.2, MKind.mblock, f⟩] else acc) acc0

/-- Family 3, inline `$…$` (app.py lines 55-63): additionally requires that
the stripped content contains no `$`. -/
def addFam3 (cs : List Char) (len : Nat) (acc0 : List Span) : List Span :=
  (scanAll (try3 cs len) (len + 1) 0).foldl
    (fun acc m =>
      if isInside acc m.1 then acc
      else
        let f := stripChars (sliceChars cs (m.1 + 1) m.2.1)
        if !f.isEmpty && !(f.contains '$') then
          acc ++ [⟨m.1, m.2.2, MKind.minline, f⟩]
        else acc) acc0

/-- Family 4, inline `\(…\)` (app.py lines 65-73). -/
def addFam4 (cs : List Char) (len : Nat) (acc0 : List Span) : List Span :=
  (scanAll (tryPair cs len '\\' '(' '\\' ')' false) (len + 1) 0).foldl
    (fun acc m =>
      if isInside acc m.1 then acc
      else
        let f := stripChars (sliceChars cs (m.1 + 2) m.2.1)
        if !f.isEmpty then acc ++ [⟨m.1, m.2.2, MKind.minline, f⟩] else acc) acc0

/-- All candidate spans, in family collection order. -/
def all_matches (cs : List Char) : List Span :=
  let len := cs.length
  addFam4 cs len (addFam3 cs len (addFam2 cs len (fam1Collect cs len)))

/- ### OverlapResolver (app.py lines 75-87) -/

/-- Stable insertion by `start` (a later element is placed after every
earlier element with a strictly smaller key and before the first element
with a greater-or-equal key it was inserted past; equal keys keep their
collection order, as Python's stable `list.sort` does). -/
def insSpan (x : Span) : List Span → List Span
  | [] => [x]
  | y :: ys => if decide (y.start < x.start) then y :: insSpan x ys else x :: y :: ys

/-- Stable sort by `start` (extensionally Python's `sort(key=lambda x: x[0])`). -/
def ssortSpans : List Span → List Span
  | [] => []
  | x :: xs => insSpan x (ssortSpans xs)

def overlapsAny (acc : List Span) (m : Span) : Bool :=
  acc.any (fun ex => decide (ex.start < m.stop) && decide (m.start < ex.stop))

/-- Greedy left-to-right acceptance of non-overlapping spans. -/
def filterOv (acc : List Span) : List Span → List Span
  | [] => acc
  | m :: ms => if overlapsAny acc m then filterOv acc ms else filterOv (acc ++ [m]) ms

/-- The resolved span set the segmenter consumes (`filtered_matches`). -/
def filtered_matches (cs : List Char) : List Span :=
  filterOv [] (ssortSpans (all_matches cs))

/- ### Segmenter (app.py lines 132-159): walk the text with the resolved
spans, producing typed parts. -/

inductive PKind where
  | ptext
  | pinline
  | pblock
deriving DecidableEq

def buildParts (cs : List Char) : List Span → Nat → List (PKind × List Char)
  | [], le =>
    if decide (le < cs.length) then
      if has_real_content (sliceChars cs le cs.length) then
        [(PKind.ptext, sliceChars cs le cs.length)]
      else []
    else []
  | sp :: rest, le =>
    (if decide (le < sp.start) then
      if has_real_content (sliceChars cs le sp.start) then
        [(PKind.ptext, sliceChars cs le sp.start)]
      else []
    else []) ++
    (match sp.kind with
     | MKind.mblock =>
       if has_real_content sp.content then [(PKind.pblock, sp.content)] else []
     | MKind.minline =>
       if has_real_content sp.content then [(PKind.pinline, sp.content)] else []) ++
    buildParts cs rest sp.stop

/- ### Merger, first pass (app.py lines 161-186): accumulate text and
re-serialized inline formulas into one buffer, flush at block formulas. -/

inductive BKind where
  | btext
  | bmath
deriving DecidableEq

def mergeParts : List (PKind × List Char) → List Char → List (BKind × List Char)
  | [], cur => if has_real_content cur then [(BKind.btext, cur)] else []
  | (PKind.ptext, c) :: rest, cur =>
    mergeParts rest (if has_real_content c then cur ++ c else cur)
  | (PKind.pinline, c) :: rest, cur =>
    mergeParts rest (if has_real_content c then cur ++ '$' :: c ++ ['$'] else cur)
  | (PKind.pblock, c) :: rest, cur =>
    (if has_real_content cur then [(BKind.btext, cur)] else []) ++
    (if has_real_content c then [(BKind.bmath, c)] else []) ++
    mergeParts rest []

/- ### Merger, second pass (app.py lines 188-211): join consecutive text
blocks with a blank line.  The returned Bool is a ghost flag recording
whether the joining branch (`current_merged_text += "\n\n" + ...`) was ever
taken; the pipeline uses only the first component. -/

def mergeBlocks : List (BKind × List Char) → List Char → List (BKind × List Char) × Bool
  | [], cur => (if has_real_content cur then [(BKind.btext, cur)] else [], false)
  | (BKind.btext, c) :: rest, cur =>
    if has_real_content c then
      if !cur.isEmpty then
        ((mergeBlocks rest (cur ++ '\n' :: '\n' :: c)).1, true)
      else mergeBlocks rest c
    else mergeBlocks rest cur
  | (BKind.bmath, c) :: rest, cur =>
    let r := mergeBlocks rest []
    ((if has_real_content cur then [(BKind.btext, cur)] else []) ++
     (if has_real_content c then [(BKind.bmath, c)] else []) ++ r.1, r.2)

def merged_blocks (cs : List Char) (spans : List Span) : List (BKind × List Char) :=
  (mergeBlocks (mergeParts (buildParts cs spans 0) []) []).1

/- ### Sanitizer `clean_html` (app.py lines 97-120): nine successive
`re.sub(..., '', content, flags=re.IGNORECASE)` passes removing empty HTML
markup. -/

/-- Case-insensitive literal match (the pattern is given in lowercase);
returns the remainder. -/
def matchCI : List Char → List Char → Option (List Char)
  | [], r => some r
  | p :: ps, c :: r => if c.toLower == p then matchCI ps r else none
  | _ :: _, [] => none

/-- Pattern `[^>]*>`: skip to just after the next `>`. -/
def skipNonGt : List Char → Option (List Char)
  | [] => none
  | '>' :: r => some r
  | _ :: r => skipNonGt r

/-- Pattern `<name[^>]*>` at the head. -/
def openTagM (name : List Char) : List Char → Option (List Char)
  | '<' :: r =>
    (match matchCI name r with
     | some r2 => skipNonGt r2
     | none => none)
  | _ => none

/-- Literal `</name>` at the head. -/
def closeTagM (name : List Char) : List Char → Option (List Char)
  | '<' :: '/' :: r =>
    (match matchCI name r with
     | some ('>' :: r2) => some r2
     | _ => none)
  | _ => none

/-- Pattern `\s*`. -/
def skipWsL (l : List Char) : List Char := l.dropWhile isWs

/-- Pattern `[^>]*/>`: skip non-`>` characters, the last being `/`, then `>`. -/
def skipToSlashGt : List Char → Option (List Char)
  | '/' :: '>' :: r => some r
  | '>' :: _ => none
  | _ :: r => skipToSlashGt r
  | [] => none

/-- Pattern `<div[^>]*>\s*</div>`. -/
def tryDivPair (l : List Char) : Option (List Char) :=
  match openTagM (strC "div") l with
  | some r => closeTagM (strC "div") (skipWsL r)
  | none => none

/-- Pattern `<div[^>]*>\s*<div[^>]*>\s*</div>\s*</div>`. -/
def tryDivNest (l : List Char) : Option (List Char) :=
  match openTagM (strC "div") l with
  | some r1 =>
    (match openTagM (strC "div") (skipWsL r1) with
     | some r2 =>
       (match closeTagM (strC "div") (skipWsL r2) with
        | some r3 => closeTagM (strC "div") (skipWsL r3)
        | none => none)
     | none => none)
  | none => none

/-- Pattern `<hr[^>]*>\s*`. -/
def tryHrOpen (l : List Char) : Option (List Char) :=
  match openTagM (strC "hr") l with
  | some r => some (skipWsL r)
  | none => none

/-- Pattern `<hr[^>]*/>`. -/
def tryHrSelf (l : List Char) : Option (List Char) :=
  match l with
  | '<' :: r =>
    (match matchCI (strC "hr") r with
     | some r2 => skipToSlashGt r2
     | none => none)
  | _ => none

/-- Pattern `<img[^>]*>\s*`. -/
def tryImgOpen (l : List Char) : Option (List Char) :=
  match openTagM (strC "img") l with
  | some r => some (skipWsL r)
  | none => none

/-- Pattern `<img[^>]*/>`. -/
def tryImgSelf (l : List Char) : Option (List Char) :=
  match l with
  | '<' :: r =>
    (match matchCI (strC "img") r with
     | some r2 => skipToSlashGt r2
     | none => none)
  | _ => none

/-- Pattern `<span[^>]*>\s*</span>`. -/
def trySpanPair (l : List Char) : Option (List Char) :=
  match openTagM (strC "span") l with
  | some r => closeTagM (strC "span") (skipWsL r)
  | none => none

/-- Pattern `<p[^>]*>\s*</p>`. -/
def tryPPair (l : List Char) : Option (List Char) :=
  match openTagM (strC "p") l with
  | some r => closeTagM (strC "p") (skipWsL r)
  | none => none

/-- Pattern `<br[^>]*>\s*`. -/
def tryBrOpen (l : List Char) : Option (List Char) :=
  match openTagM (strC "br") l with
  | some r => some (skipWsL r)
  | none => none

/-- One `re.sub(pat, '', s)` pass: at each position remove a match of the
pattern and resume after it, otherwise copy one character.  Fuelled by the
input length (every step consumes at least one character). -/
def subPass (t : List Char → Option (List Char)) : Nat → List Char → List Char
  | 0, l => l
  | _ + 1, [] => []
  | fuel + 1, c :: r =>
    match t (c :: r) with
    | some rest => subPass t fuel rest
    | none => c :: subPass t fuel r

def clean_html (l0 : List Char) : List Char :=
  let l1 := subPass tryDivPair l0.length l0
  let l2 := subPass tryDivNest l1.length l1
  let l3 := subPass tryHrOpen l2.length l2
  let l4 := subPass tryHrSelf l3.length l3
  let l5 := subPass tryImgOpen l4.length l4
  let l6 := subPass tryImgSelf l5.length l5
  let l7 := subPass trySpanPair l6.length l6
  let l8 := subPass tryPPair l7.length l7
  subPass tryBrOpen l8.length l8

/- ### Emitter (app.py lines 213-235). -/

/-- Python `block_content.replace('\\\\', '\\')`: collapse each double backslash
to a single one, scanning left to right. -/
def collapseBS : List Char → List Char
  | [] => []
  | [c] => [c]
  | c :: c2 :: r =>
    if c == '\\' && c2 == '\\' then '\\' :: collapseBS r
    else c :: collapseBS (c2 :: r)

/-- A call into the rendering surface: `st.markdown` or `st.latex`
(`latex` records every invocation of the math primitive, including
rejected attempts). -/
inductive Call where
  | md (payload : List Char)
  | latex (payload : List Char)
deriving DecidableEq

def Call.payload : Call → List Char
  | Call.md s => s
  | Call.latex s => s

/-- The backquote character (used by the monospace fallback). -/
def btickC : Char := Char.ofNat 96

/-- Render one merged block.  `ok f` tells whether `st.latex f` succeeds;
on a first failure the formula is collapsed and stripped and retried once;
on a second failure the collapsed formula is rendered as a monospace
markdown literal. -/
def renderBlock (ok : List Char → Bool) : BKind × List Char → List Call
  | (BKind.btext, c) =>
    if has_real_content c then
      let cc := clean_html (stripChars c)
      if !cc.isEmpty && has_real_content cc then [Call.md cc] else []
    else []
  | (BKind.bmath, c) =>
    if has_real_content c then
      if ok c then [Call.latex c]
      else
        let cf := stripChars (collapseBS c)
        if has_real_content cf then
          if ok cf then [Call.latex c, Call.latex cf]
          else [Call.latex c, Call.latex cf, Call.md (btickC :: cf ++ [btickC])]
        else [Call.latex c]
    else []

def renderList (ok : List Char → Bool) : List (BKind × List Char) → List Call
  | [] => []
  | b :: bs => renderBlock ok b ++ renderList ok bs

/-- The whole pipeline `render_text_with_latex(text)` (app.py lines
17-235), returning the ordered list of rendering-surface calls it makes. -/
def render_text_with_latex (ok : List Char → Bool) (text : List Char) : List Call :=
  if text.isEmpty then []
  else
    let t := normalizeText text
    let spans := filtered_matches t
    if spans.isEmpty then
      if has_real_content t then
        let ct := clean_html (stripChars t)
        if !ct.isEmpty && has_real_content ct then [Call.md ct] else []
      else []
    else renderList ok (merged_blocks t spans)

/-- The pipeline's output RenderBlock sequence: the merged blocks handed to
the emitting loop, or, on the no-span fallback path, the single sanitized
text block that is rendered directly. -/
def outBlocks (text : List Char) : List (BKind × List Char) :=
  if text.isEmpty then []
  else
    let t := normalizeText text
    let spans := filtered_matches t
    if spans.isEmpty then
      if has_real_content t then
        let ct := clean_html (stripChars t)
        if !ct.isEmpty && has_real_content ct then [(BKind.btext, ct)] else []
      else []
    else merged_blocks t spans

/-- Serialize RenderBlocks back to a flat string: TextBlock payloads
verbatim, MathBlock formulas wrapped as `$$…$$`. -/
def reconstructBlocks : List (BKind × List Char) → List Char
  | [] => []
  | (BKind.btext, c) :: rest => c ++ reconstructBlocks rest
  | (BKind.bmath, c) :: rest => '$' :: '$' :: (c ++ '$' :: '$' :: reconstructBlocks rest)

/- ### Basic facts about the content predicate. -/

theorem has_real_content_eq_any (l : List Char) :
    has_real_content l = l.any (fun c => !(isWs c)) := by
  induction l with
  | nil => rfl
  | cons c r ih =>
    simp only [has_real_content, List.filter_cons, List.any_cons] at *
    cases h : (!(isWs c)) <;> simp [h, ih]

theorem has_real_content_iff (l : List Char) :
    has_real_content l = true ↔ ∃ c ∈ l, isWs c = false := by
  rw [has_real_content_eq_any]
  simp [List.any_eq_true]

theorem exists_nonws_dropWhile : ∀ l : List Char, (∃ c ∈ l, isWs c = false) →
    ∃ c ∈ l.dropWhile isWs, isWs c = false := by
  intro l h
  induction l with
  | nil => simp at h
  | cons a r ih =>
    by_cases ha : isWs a = true
    · rw [List.dropWhile_cons_of_pos ha]
      apply ih
      rcases h with ⟨c, hc, hcw⟩
      rcases List.mem_cons.mp hc with rfl | hc
      · exact absurd ha (by simp [hcw])
      · exact ⟨c, hc, hcw⟩
    · rw [List.dropWhile_cons_of_neg ha]
      exact ⟨a, List.mem_cons_self a r, by simpa using ha⟩

theorem has_real_content_stripChars {l : List Char} (h : has_real_content l = true) :
    has_real_content (stripChars l) = true := by
  rw [has_real_content_iff] at h ⊢
  have h1 := exists_nonws_dropWhile l h
  have h2 : ∃ c ∈ (l.dropWhile isWs).reverse, isWs c = false := by
    rcases h1 with ⟨c, hc, hw⟩
    exact ⟨c, List.mem_reverse.mpr hc, hw⟩
  rcases exists_nonws_dropWhile _ h2 with ⟨c, hc, hw⟩
  exact ⟨c, List.mem_reverse.mpr hc, hw⟩

theorem has_real_content_collapseBS : ∀ l : List Char, has_real_content l = true →
    has_real_content (collapseBS l) = true := by
  intro l
  induction l using collapseBS.induct with
  | case1 => intro h; simpa using h
  | case2 c => intro h; simpa [collapseBS] using h
  | case3 c c2 r hbb ih =>
    intro _
    rw [collapseBS, if_pos hbb, has_real_content_iff]
    exact ⟨'\\', List.mem_cons_self _ _, by decide⟩
  | case4 c c2 r hbb ih =>
    intro h
    rw [collapseBS, if_neg hbb]
    rw [has_real_content_iff] at h ⊢
    rcases h with ⟨x, hx, hxw⟩
    rcases List.mem_cons.mp hx with rfl | hx
    · exact ⟨x, List.mem_cons_self _ _, hxw⟩
    · have := ih (by rw [has_real_content_iff]; exact ⟨x, hx, hxw⟩)
      rw [has_real_content_iff] at this
      rcases this with ⟨y, hy, hyw⟩
      exact ⟨y, List.mem_cons_of_mem _ hy, hyw⟩

theorem btick_content (l : List Char) : has_real_content (btickC :: l ++ [btickC]) = true := by
  rw [has_real_content_iff]
  exact ⟨btickC, List.mem_cons_self _ _, by decide⟩

/- ### The emitter only ever passes contentful payloads. -/

theorem renderBlock_content (ok : List Char → Bool) (b : BKind × List Char) (c : Call)
    (hc : c ∈ renderBlock ok b) : has_real_content c.payload = true := by
  obtain ⟨k, s⟩ := b
  cases k with
  | btext =>
    simp only [renderBlock] at hc
    split at hc
    · split at hc
      · rename_i h1 h2
        rcases List.mem_singleton.mp hc with rfl
        simpa [Call.payload] using (Bool.and_eq_true_iff.mp h2).2
      · simp at hc
    · simp at hc
  | bmath =>
    simp only [renderBlock] at hc
    split at hc
    · rename_i h1
      split at hc
      · rcases List.mem_singleton.mp hc with rfl
        simpa [Call.payload] using h1
      · split at hc
        · rename_i hcf
          split at hc
          · rcases List.mem_cons.mp hc with rfl | hc
            · simpa [Call.payload] using h1
            rcases List.mem_singleton.mp hc with rfl
            simpa [Call.payload] using hcf
          · rcases List.mem_cons.mp hc with rfl | hc
            · simpa [Call.payload] using h1
            rcases List.mem_cons.mp hc with rfl | hc
            · simpa [Call.payload] using hcf
            rcases List.mem_singleton.mp hc with rfl
            simpa [Call.payload] using btick_content (stripChars (collapseBS s))
        · rcases List.mem_singleton.mp hc with rfl
          simpa [Call.payload] using h1
    · simp at hc

theorem renderList_content (ok : List Char → Bool) (bs : List (BKind × List Char)) (c : Call)
    (hc : c ∈ renderList ok bs) : has_real_content c.payload = true := by
  induction bs with
  | nil => simp [renderList] at hc
  | cons b bs ih =>
    simp only [renderList, List.mem_append] at hc
    rcases hc with h | h
    · exact renderBlock_content ok b c h
    · exact ih h

/-- C1: for every input string, every rendering-surface call the pipeline
makes carries content satisfying the has-real-content predicate: the markup
primitive is never invoked with a whitespace-only TextBlock payload and the
math primitive is never invoked with a whitespace-only formula. -/
theorem C1_render_calls_have_content (ok : List Char → Bool) (text : List Char) (c : Call)
    (hc : c ∈ render_text_with_latex ok text) : has_real_content c.payload = true := by
  simp only [render_text_with_latex] at hc
  split at hc
  · simp at hc
  · split at hc
    · split at hc
      · split at hc
        · rename_i hguard
          rcases List.mem_singleton.mp hc with rfl
          simpa [Call.payload] using (Bool.and_eq_true_iff.mp hguard).2
        · simp at hc
      · simp at hc
    · exact renderList_content _ _ _ hc

/-- Witness for C1 at a concrete input. -/
theorem C1_witness :
    Call.md (strC "hi") ∈ render_text_with_latex (fun _ => true) (strC "hi") ∧
      has_real_content (Call.md (strC "hi")).payload = true :=
  ⟨by decide,
   C1_render_calls_have_content (fun _ => true) (strC "hi") (Call.md (strC "hi")) (by decide)⟩

/- ### Overlap resolution: disjointness, sortedness, stability. -/

/-- Half-open interval disjointness of spans. -/
def spanDisj (a b : Span) : Prop := a.stop ≤ b.start ∨ b.stop ≤ a.start

theorem overlapsAny_false {acc : List Span} {m : Span} (h : overlapsAny acc m = false) :
    ∀ ex ∈ acc, spanDisj ex m := by
  intro ex hex
  have hx := List.any_eq_false.mp h ex hex
  simp only [Bool.and_eq_true, decide_eq_true_eq] at hx
  unfold spanDisj
  omega

theorem filterOv_pairwise : ∀ (ms acc : List Span), acc.Pairwise spanDisj →
    (filterOv acc ms).Pairwise spanDisj := by
  intro ms
  induction ms with
  | nil => intro acc h; simpa [filterOv] using h
  | cons m ms ih =>
    intro acc h
    rw [filterOv]
    split
    · exact ih acc h
    · rename_i hov
      apply ih
      rw [List.pairwise_append]
      refine ⟨h, by simp, ?_⟩
      intro a ha b hb
      rcases List.mem_singleton.mp hb with rfl
      exact overlapsAny_false (by simpa using hov) a ha

theorem filterOv_decomp : ∀ (ms acc : List Span),
    ∃ t, filterOv acc ms = acc ++ t ∧ t.Sublist ms := by
  intro ms
  induction ms with
  | nil => intro acc; exact ⟨[], by simp [filterOv], List.Sublist.refl _⟩
  | cons m ms ih =>
    intro acc
    rw [filterOv]
    split
    · rcases ih acc with ⟨t, h1, h2⟩
      exact ⟨t, h1, h2.cons m⟩
    · rcases ih (acc ++ [m]) with ⟨t, h1, h2⟩
      exact ⟨m :: t, by simpa [List.append_assoc] using h1, h2.cons₂ m⟩

theorem mem_insSpan {x z : Span} : ∀ {l : List Span}, z ∈ insSpan x l ↔ z = x ∨ z ∈ l := by
  intro l
  induction l with
  | nil => simp [insSpan]
  | cons y ys ih =>
    rw [insSpan]
    split
    · simp only [List.mem_cons, ih]
      tauto
    · simp [List.mem_cons]

theorem insSpan_sorted {x : Span} : ∀ {l : List Span},
    l.Pairwise (fun a b : Span => a.start ≤ b.start) →
    (insSpan x l).Pairwise (fun a b : Span => a.start ≤ b.start) := by
  intro l
  induction l with
  | nil => intro _; simp [insSpan]
  | cons y ys ih =>
    intro h
    have h1 : ∀ z ∈ ys, y.start ≤ z.start := (List.pairwise_cons.mp h).1
    have h2 := (List.pairwise_cons.mp h).2
    rw [insSpan]
    split
    · rename_i hlt
      rw [decide_eq_true_eq] at hlt
      rw [List.pairwise_cons]
      refine ⟨?_, ih h2⟩
      intro z hz
      rcases mem_insSpan.mp hz with rfl | hz
      · omega
      · exact h1 z hz
    · rename_i hge
      simp only [decide_eq_true_eq] at hge
      rw [List.pairwise_cons]
      refine ⟨?_, h⟩
      intro z hz
      rcases List.mem_cons.mp hz with rfl | hz
      · omega
      · have := h1 z hz
        omega

theorem ssortSpans_sorted : ∀ l : List Span,
    (ssortSpans l).Pairwise (fun a b : Span => a.start ≤ b.start) := by
  intro l
  induction l with
  | nil => simp [ssortSpans]
  | cons x xs ih =>
    rw [ssortSpans]
    exact insSpan_sorted ih

theorem filter_insSpan (x : Span) (k : Nat) : ∀ l : List Span,
    (insSpan x l).filter (fun m => m.start == k) =
      (if x.start == k then [x] else []) ++ l.filter (fun m => m.start == k) := by
  intro l
  induction l with
  | nil => cases hxk : x.start == k <;> simp [insSpan, List.filter_cons, hxk]
  | cons y ys ih =>
    rw [insSpan]
    split
    · rename_i hlt
      rw [decide_eq_true_eq] at hlt
      by_cases hy : (y.start == k) = true
      · have hyk : y.start = k := by simpa using hy
        have hxk : (x.start == k) = false := by
          simp only [beq_eq_false_iff_ne, ne_eq]
          omega
        simp [List.filter_cons, hy, hxk, ih]
      · simp [List.filter_cons, hy, ih]
    · by_cases hx : (x.start == k) = true
      · simp [List.filter_cons, hx]
      · simp [List.filter_cons, hx]

theorem ssortSpans_stable (l : List Span) (k : Nat) :
    (ssortSpans l).filter (fun m => m.start == k) = l.filter (fun m => m.start == k) := by
  induction l with
  | nil => rfl
  | cons x xs ih =>
    rw [ssortSpans, filter_insSpan, ih, List.filter_cons]
    by_cases hx : (x.start == k) = true <;> simp [hx]

/-- C2: for every input string, the span set accepted by the
overlap-resolution step is pairwise non-overlapping under half-open interval
disjointness, is sorted ascending by start offset, and is a subsequence of
the stably sorted candidate list, whose sort breaks start-offset ties by the
family scan order in which candidates were collected (stability expressed as
key-wise filter preservation). -/
theorem C2_resolved_spans_disjoint_sorted_stable (text : List Char) :
    (filtered_matches (normalizeText text)).Pairwise spanDisj ∧
    (filtered_matches (normalizeText text)).Pairwise
      (fun a b : Span => a.start ≤ b.start) ∧
    (filtered_matches (normalizeText text)).Sublist
      (ssortSpans (all_matches (normalizeText text))) ∧
    ∀ k : Nat,
      (ssortSpans (all_matches (normalizeText text))).filter (fun m => m.start == k) =
        (all_matches (normalizeText text)).filter (fun m => m.start == k) := by
  have hsub : (filtered_matches (normalizeText text)).Sublist
      (ssortSpans (all_matches (normalizeText text))) := by
    rcases filterOv_decomp (ssortSpans (all_matches (normalizeText text))) [] with ⟨t, h1, h2⟩
    have he : filtered_matches (normalizeText text) = t := by
      simpa [filtered_matches] using h1
    rw [he]
    exact h2
  refine ⟨?_, ?_, hsub, ?_⟩
  · exact filterOv_pairwise _ [] List.Pairwise.nil
  · exact (ssortSpans_sorted (all_matches (normalizeText text))).sublist hsub
  · exact fun k => ssortSpans_stable _ k

/- ### Merger invariants (claims about the two merge passes). -/

theorem buildParts_pblock_content (cs : List Char) : ∀ (spans : List Span) (le : Nat)
    (p : PKind × List Char), p ∈ buildParts cs spans le → p.1 = PKind.pblock →
    has_real_content p.2 = true := by
  intro spans
  induction spans with
  | nil =>
    intro le p hp hk
    simp only [buildParts] at hp
    split at hp
    · split at hp
      · rcases List.mem_singleton.mp hp with rfl
        simp at hk
      · simp at hp
    · simp at hp
  | cons sp rest ih =>
    intro le p hp hk
    simp only [buildParts, List.mem_append] at hp
    rcases hp with (hp | hp) | hp
    · split at hp
      · split at hp
        · rcases List.mem_singleton.mp hp with rfl
          simp at hk
        · simp at hp
      · simp at hp
    · split at hp
      · split at hp
        · rename_i hcond
          rcases List.mem_singleton.mp hp with rfl
          exact hcond
        · simp at hp
      · split at hp
        · rcases List.mem_singleton.mp hp with rfl
          simp at hk
        · simp at hp
    · exact ih sp.stop p hp hk

theorem mergeParts_content : ∀ (parts : List (PKind × List Char)) (cur : List Char)
    (b : BKind × List Char), b ∈ mergeParts parts cur → has_real_content b.2 = true := by
  intro parts
  induction parts with
  | nil =>
    intro cur b hb
    simp only [mergeParts] at hb
    split at hb
    · rename_i h
      rcases List.mem_singleton.mp hb with rfl
      exact h
    · simp at hb
  | cons p rest ih =>
    intro cur b hb
    obtain ⟨k, c⟩ := p
    cases k with
    | ptext =>
      simp only [mergeParts] at hb
      exact ih _ b hb
    | pinline =>
      simp only [mergeParts] at hb
      exact ih _ b hb
    | pblock =>
      simp only [mergeParts, List.mem_append] at hb
      rcases hb with (hb | hb) | hb
      · split at hb
        · rename_i h
          rcases List.mem_singleton.mp hb with rfl
          exact h
        · simp at hb
      · split at hb
        · rename_i h
          rcases List.mem_singleton.mp hb with rfl
          exact h
        · simp at hb
      · exact ih [] b hb

/-- The alternation relation of the first merge pass: a text entry is never
immediately followed by another text entry. -/
def chainR (a b : BKind × List Char) : Prop := a.1 = BKind.btext → b.1 = BKind.bmath

theorem chainR_helper (A B : List (BKind × List Char)) (c : List Char)
    (hA : A = [] ∨ ∃ t, A = [(BKind.btext, t)]) (hB : List.Chain' chainR B) :
    List.Chain' chainR (A ++ (BKind.bmath, c) :: B) := by
  have hm : List.Chain' chainR ((BKind.bmath, c) :: B) := by
    apply hB.cons'
    intro y _
    intro habs
    simp [chainR] at habs
  rcases hA with rfl | ⟨t, rfl⟩
  · simpa using hm
  · simp only [List.singleton_append]
    apply hm.cons'
    intro y hy
    simp only [List.head?_cons, Option.mem_def, Option.some_inj] at hy
    subst hy
    intro _
    rfl

theorem mergeParts_chain : ∀ (parts : List (PKind × List Char)) (cur : List Char),
    (∀ p ∈ parts, p.1 = PKind.pblock → has_real_content p.2 = true) →
    List.Chain' chainR (mergeParts parts cur) := by
  intro parts
  induction parts with
  | nil =>
    intro cur _
    simp only [mergeParts]
    split
    · exact List.chain'_singleton _
    · exact List.chain'_nil
  | cons p rest ih =>
    intro cur hall
    obtain ⟨k, c⟩ := p
    have hrest : ∀ q ∈ rest, q.1 = PKind.pblock → has_real_content q.2 = true :=
      fun q hq => hall q (List.mem_cons_of_mem _ hq)
    cases k with
    | ptext =>
      simp only [mergeParts]
      exact ih _ hrest
    | pinline =>
      simp only [mergeParts]
      exact ih _ hrest
    | pblock =>
      have hc : has_real_content c = true :=
        hall (PKind.pblock, c) (List.mem_cons_self _ _) rfl
      simp only [mergeParts, hc, if_true]
      have hh := chainR_helper (if has_real_content cur then [(BKind.btext, cur)] else [])
        (mergeParts rest []) c ?_ (ih [] hrest)
      · simpa using hh
      · split
        · exact Or.inr ⟨cur, rfl⟩
        · exact Or.inl rfl

theorem mergeBlocks_id : ∀ (n : Nat) (tb : List (BKind × List Char)), tb.length ≤ n →
    List.Chain' chainR tb → (∀ b ∈ tb, has_real_content b.2 = true) →
    mergeBlocks tb [] = (tb, false) := by
  intro n
  induction n with
  | zero =>
    intro tb hlen _ _
    have h0 : tb = [] := List.length_eq_zero.mp (Nat.le_zero.mp hlen)
    subst h0
    simp [mergeBlocks, has_real_content]
  | succ n ih =>
    intro tb hlen hch hall
    rcases tb with _ | ⟨⟨k, c⟩, rest⟩
    · simp [mergeBlocks, has_real_content]
    have hc : has_real_content c = true := hall _ (List.mem_cons_self _ _)
    have hrest : ∀ b ∈ rest, has_real_content b.2 = true :=
      fun b hb => hall b (List.mem_cons_of_mem _ hb)
    cases k with
    | bmath =>
      have hlen1 : rest.length ≤ n := by
        simp only [List.length_cons] at hlen
        omega
      have hr := ih rest hlen1 hch.tail hrest
      have h0 : has_real_content ([] : List Char) = false := rfl
      simp [mergeBlocks, hr, hc, h0]
    | btext =>
      rcases rest with _ | ⟨⟨k2, c2⟩, rest2⟩
      · simp [mergeBlocks, hc]
      cases k2 with
      | btext =>
        exfalso
        have hx := (List.chain'_cons.mp hch).1
        simp [chainR] at hx
      | bmath =>
        have hc2 : has_real_content c2 = true := hall (BKind.bmath, c2) (by simp)
        have hrest2 : ∀ b ∈ rest2, has_real_content b.2 = true :=
          fun b hb => hall b (by simp [hb])
        have hlen2 : rest2.length ≤ n := by
          simp only [List.length_cons] at hlen
          omega
        have hr := ih rest2 hlen2 hch.tail.tail hrest2
        have hcne : (List.nil : List Char).isEmpty = true := rfl
        simp [mergeBlocks, hc, hc2, hr]

/-- C10: for every input string, the intermediate block list built by the
first merging pass never contains two consecutive text entries (every
flushed text buffer is immediately followed by a block-formula entry), so
the second pass never takes its blank-line joining branch and returns the
list unchanged (`merged_blocks` equals `text_blocks`). -/
theorem C10_no_consecutive_text_blocks (text : List Char) :
    List.Chain' chainR
      (mergeParts (buildParts (normalizeText text) (filtered_matches (normalizeText text)) 0) []) ∧
    mergeBlocks
      (mergeParts (buildParts (normalizeText text) (filtered_matches (normalizeText text)) 0) []) []
      = (mergeParts (buildParts (normalizeText text) (filtered_matches (normalizeText text)) 0) [],
         false) ∧
    merged_blocks (normalizeText text) (filtered_matches (normalizeText text)) =
      mergeParts (buildParts (normalizeText text) (filtered_matches (normalizeText text)) 0) [] := by
  have hch := mergeParts_chain
    (buildParts (normalizeText text) (filtered_matches (normalizeText text)) 0) []
    (fun p hp => buildParts_pblock_content (normalizeText text)
      (filtered_matches (normalizeText text)) 0 p hp)
  have hall := fun b hb => mergeParts_content
    (buildParts (normalizeText text) (filtered_matches (normalizeText text)) 0) [] b hb
  have hid := mergeBlocks_id
    (mergeParts (buildParts (normalizeText text) (filtered_matches (normalizeText text)) 0) []).length
    _ le_rfl hch hall
  exact ⟨hch, hid, by simp [merged_blocks, hid]⟩

/- ### Empty or whitespace-only input. -/

theorem splitNl_ne_nil : ∀ cs : List Char, splitNl cs ≠ [] := by
  intro cs
  cases cs with
  | nil => simp [splitNl]
  | cons c r =>
    rw [splitNl]
    split
    · simp
    · rcases h : splitNl r with _ | ⟨l, ls⟩ <;> simp [h]

theorem joinNl_splitNl : ∀ cs : List Char, joinNl (splitNl cs) = cs := by
  intro cs
  induction cs with
  | nil => rfl
  | cons c r ih =>
    rw [splitNl]
    split
    · rename_i hc
      have hc2 : c = '\n' := by simpa using hc
      subst hc2
      rcases h : splitNl r with _ | ⟨l, ls⟩
      · exact absurd h (splitNl_ne_nil r)
      · have ih2 : joinNl (l :: ls) = r := by rw [← h]; exact ih
        simp [joinNl, ih2]
    · rcases h : splitNl r with _ | ⟨l, ls⟩
      · exact absurd h (splitNl_ne_nil r)
      · simp only [h]
        have ih2 : joinNl (l :: ls) = r := by rw [← h]; exact ih
        cases ls with
        | nil =>
          simp [joinNl] at ih2
          simp [joinNl, ih2]
        | cons l2 ls2 =>
          simp [joinNl] at ih2 ⊢
          simp [ih2]

theorem mem_splitNl_mem : ∀ (cs l : List Char), l ∈ splitNl cs → ∀ c ∈ l, c ∈ cs := by
  intro cs
  induction cs with
  | nil =>
    intro l hl c hc
    simp [splitNl] at hl
    subst hl
    simp at hc
  | cons a r ih =>
    intro l hl c hc
    rw [splitNl] at hl
    split at hl
    · rcases List.mem_cons.mp hl with rfl | hl
      · simp at hc
      · exact List.mem_cons_of_mem _ (ih l hl c hc)
    · rcases h2 : splitNl r with _ | ⟨l0, ls0⟩
      · exact absurd h2 (splitNl_ne_nil r)
      · rw [h2] at hl
        rcases List.mem_cons.mp hl with rfl | hl
        · rcases List.mem_cons.mp hc with rfl | hc2
          · exact List.mem_cons_self _ _
          · have hm : l0 ∈ splitNl r := by rw [h2]; exact List.mem_cons_self _ _
            exact List.mem_cons_of_mem _ (ih l0 hm c hc2)
        · have hm : l ∈ splitNl r := by rw [h2]; exact List.mem_cons_of_mem _ hl
          exact List.mem_cons_of_mem _ (ih l hm c hc)

theorem reSubFuel_id : ∀ (fuel : Nat) (l : List Char), (∀ c ∈ l, (c == '\\') = false) →
    reSubFuel fuel l = l := by
  intro fuel
  induction fuel with
  | zero => intro l _; rfl
  | succ f ih =>
    intro l h
    cases l with
    | nil => rfl
    | cons c r =>
      have hc : (c == '\\') = false := h c (List.mem_cons_self _ _)
      simp only [reSubFuel, hc, Bool.false_and, Bool.false_eq_true, if_false]
      rw [ih r (fun x hx => h x (List.mem_cons_of_mem _ hx))]

theorem normalizeText_id_of_ws {cs : List Char} (h : ∀ c ∈ cs, isWs c = true) :
    normalizeText cs = cs := by
  unfold normalizeText
  have hlines : ∀ l ∈ splitNl cs, reSubLine l = l := by
    intro l hl
    apply reSubFuel_id
    intro c hc
    have hcw : isWs c = true := h c (mem_splitNl_mem cs l hl c hc)
    by_cases he : c = '\\'
    · rw [he] at hcw
      exact absurd hcw (by decide)
    · exact beq_eq_false_iff_ne.mpr he
  rw [List.map_congr_left hlines, List.map_id', joinNl_splitNl]

theorem gch_ws_or_nul {cs : List Char} (h : ∀ c ∈ cs, isWs c = true) (i : Nat) :
    isWs (gch cs i) = true ∨ gch cs i = Char.ofNat 0 := by
  unfold gch
  by_cases hi : i < cs.length
  · left
    apply h
    rw [List.getD_eq_getElem?_getD, List.getElem?_eq_getElem hi]
    simp only [Option.getD_some]
    exact List.getElem_mem hi
  · right
    rw [List.getD_eq_getElem?_getD, List.getElem?_eq_none (by omega)]
    rfl

theorem gch_beq_false {cs : List Char} (h : ∀ c ∈ cs, isWs c = true) (i : Nat) {d : Char}
    (hd : isWs d = false) (hn : Char.ofNat 0 ≠ d) : (gch cs i == d) = false := by
  rcases gch_ws_or_nul h i with hw | hnul
  · by_cases he : gch cs i = d
    · rw [he] at hw
      rw [hw] at hd
      exact absurd hd (by simp)
    · simpa using he
  · rw [hnul]
    simpa using hn

theorem tryPair_none_ws {cs : List Char} (h : ∀ c ∈ cs, isWs c = true) (len : Nat)
    {o1 : Char} (o2 c1 c2 : Char) (dA : Bool) (ho : isWs o1 = false)
    (hn : Char.ofNat 0 ≠ o1) (i : Nat) :
    tryPair cs len o1 o2 c1 c2 dA i = none := by
  unfold tryPair
  have h1 : isAt2 cs len o1 o2 i = false := by
    unfold isAt2
    rw [gch_beq_false h i ho hn]
    simp
  rw [h1]
  simp

theorem try3_none_ws {cs : List Char} (h : ∀ c ∈ cs, isWs c = true) (len i : Nat) :
    try3 cs len i = none := by
  unfold try3
  have h1 : open3 cs len i = false := by
    unfold open3
    rw [gch_beq_false h i (by decide) (by decide)]
    simp
  rw [h1]
  simp

theorem scanAll_none {tryM : Nat → Option (Nat × Nat)} (h : ∀ i, tryM i = none) :
    ∀ (fuel i : Nat), scanAll tryM fuel i = [] := by
  intro fuel
  induction fuel with
  | zero => intro i; rfl
  | succ f ih =>
    intro i
    rw [scanAll, h i]
    exact ih (i + 1)

theorem all_matches_ws {cs : List Char} (h : ∀ c ∈ cs, isWs c = true) :
    all_matches cs = [] := by
  simp only [all_matches, fam1Collect, addFam2, addFam3, addFam4]
  rw [scanAll_none (fun i => tryPair_none_ws h cs.length '$' '$' '$' true (by decide) (by decide) i),
      scanAll_none (fun i => tryPair_none_ws h cs.length '[' '\\' ']' true (by decide) (by decide) i),
      scanAll_none (fun i => try3_none_ws h cs.length i),
      scanAll_none (fun i => tryPair_none_ws h cs.length '(' '\\' ')' false (by decide) (by decide) i)]
  rfl

theorem hrc_false_of_ws {l : List Char} (h : ∀ c ∈ l, isWs c = true) :
    has_real_content l = false := by
  rw [has_real_content_eq_any, List.any_eq_false]
  intro x hx
  simp [h x hx]

/-- C8: for every input that is empty or consists entirely of whitespace
characters, the pipeline produces no render blocks and makes no render
calls (and this path returns normally, it is not an error). -/
theorem C8_empty_or_whitespace_input (ok : List Char → Bool) (text : List Char)
    (h : ∀ c ∈ text, isWs c = true) :
    render_text_with_latex ok text = [] ∧ outBlocks text = [] := by
  have hnorm : normalizeText text = text := normalizeText_id_of_ws h
  have hspans : filtered_matches (normalizeText text) = [] := by
    unfold filtered_matches
    rw [hnorm, all_matches_ws h]
    rfl
  have hhrc : has_real_content (normalizeText text) = false := by
    rw [hnorm]
    exact hrc_false_of_ws h
  by_cases he : text.isEmpty
  · constructor <;> simp [render_text_with_latex, outBlocks, he]
  · constructor <;> simp [render_text_with_latex, outBlocks, he, hspans, hhrc]

/-- Witness for C8 at a concrete whitespace-only input. -/
theorem C8_witness :
    render_text_with_latex (fun _ => true) (strC " \n\t ") = [] ∧
      outBlocks (strC " \n\t ") = [] :=
  C8_empty_or_whitespace_input (fun _ => true) (strC " \n\t ") (by decide)

/- ### The re.sub normalizer scan equals the run-reduction rule. -/

theorem leadBS_replicate_append : ∀ (k : Nat) (m : List Char),
    leadBS (List.replicate k '\\' ++ m) = k + leadBS m := by
  intro k
  induction k with
  | zero => intro m; simp
  | succ n ih =>
    intro m
    rw [List.replicate_succ, List.cons_append]
    simp only [leadBS, ih]
    simp
    omega

theorem leadBS_decomp : ∀ l : List Char,
    List.replicate (leadBS l) '\\' ++ l.drop (leadBS l) = l ∧
      leadBS (l.drop (leadBS l)) = 0 := by
  intro l
  induction l with
  | nil => simp [leadBS]
  | cons c r ih =>
    by_cases hc : (c == '\\') = true
    · have hc2 : c = '\\' := by simpa using hc
      subst hc2
      have hl : leadBS ('\\' :: r) = leadBS r + 1 := by simp [leadBS]
      rw [hl]
      constructor
      · rw [List.replicate_succ, List.cons_append, List.drop_succ_cons]
        rw [ih.1]
      · rw [List.drop_succ_cons]
        exact ih.2
    · have hl : leadBS (c :: r) = 0 := by
        simp only [leadBS]
        rw [Bool.not_eq_true] at hc
        simp [hc]
      rw [hl]
      constructor
      · simp
      · simp [hl]

theorem runReduce_peel : ∀ (k p : Nat) (m : List Char),
    runReduce p (List.replicate k '\\' ++ m) = runReduce (p + k) m := by
  intro k
  induction k with
  | zero => intro p m; simp
  | succ n ih =>
    intro p m
    rw [List.replicate_succ, List.cons_append]
    have : runReduce p ('\\' :: (List.replicate n '\\' ++ m)) =
        runReduce (p + 1) (List.replicate n '\\' ++ m) := by
      simp [runReduce]
    rw [this, ih]
    congr 1
    omega

theorem runReduce_cons_nb (p : Nat) (b : Char) (r : List Char)
    (hb : (b == '\\') = false) (hbr : (b == '[' || b == '(') = false) :
    runReduce p (b :: r) = List.replicate p '\\' ++ b :: runReduce 0 r := by
  simp [runReduce, hb, hbr]

theorem runReduce_cons_br (p : Nat) (b : Char) (r : List Char)
    (hb : (b == '\\') = false) (hbr : (b == '[' || b == '(') = true) (hp : 2 ≤ p) :
    runReduce p (b :: r) = List.replicate (p - 1) '\\' ++ b :: runReduce 0 r := by
  simp [runReduce, hb, hbr, hp]

theorem runReduce_one {m : List Char} (hm : leadBS m = 0) :
    runReduce 1 m = '\\' :: runReduce 0 m := by
  cases m with
  | nil => simp [runReduce]
  | cons c r =>
    have hc : (c == '\\') = false := by
      simp only [leadBS] at hm
      by_contra hcc
      rw [Bool.not_eq_false] at hcc
      rw [hcc] at hm
      simp at hm
    simp [runReduce, hc]

theorem reSubFuel_eq_runReduce : ∀ (fuel p : Nat) (m : List Char), leadBS m = 0 →
    p + m.length ≤ fuel → reSubFuel fuel (List.replicate p '\\' ++ m) = runReduce p m := by
  intro fuel
  induction fuel with
  | zero =>
    intro p m hm hf
    have hp : p = 0 := by omega
    have hm0 : m = [] := List.length_eq_zero.mp (by omega)
    subst hp
    subst hm0
    simp [runReduce, reSubFuel]
  | succ f ih =>
    intro p m hm hf
    cases p with
    | zero =>
      rw [List.replicate_zero, List.nil_append]
      cases m with
      | nil => simp [reSubFuel, runReduce]
      | cons c r =>
        have hc : (c == '\\') = false := by
          simp only [leadBS] at hm
          by_contra hcc
          rw [Bool.not_eq_false] at hcc
          rw [hcc] at hm
          simp at hm
        simp only [reSubFuel, hc, Bool.false_and, Bool.false_eq_true, if_false]
        obtain ⟨hdec, hzero⟩ := leadBS_decomp r
        have hlen : leadBS r + (r.drop (leadBS r)).length = r.length := by
          have h2 := congrArg List.length hdec
          simpa using h2
        have hr : reSubFuel f r = runReduce (leadBS r) (r.drop (leadBS r)) := by
          calc reSubFuel f r
              = reSubFuel f (List.replicate (leadBS r) '\\' ++ r.drop (leadBS r)) := by
                rw [hdec]
            _ = runReduce (leadBS r) (r.drop (leadBS r)) := by
                apply ih _ _ hzero
                simp only [List.length_cons] at hf
                omega
        have hpeel : runReduce 0 r = runReduce (leadBS r) (r.drop (leadBS r)) := by
          conv_lhs => rw [← hdec]
          rw [runReduce_peel]
          simp
        have hrhs : runReduce 0 (c :: r) = c :: runReduce 0 r := by
          simp [runReduce, hc]
        rw [hr, hrhs, hpeel]
    | succ q =>
      have hrepl : List.replicate (q + 1) '\\' ++ m = '\\' :: (List.replicate q '\\' ++ m) := by
        rw [List.replicate_succ, List.cons_append]
      rw [hrepl]
      have hlead : leadBS (List.replicate q '\\' ++ m) = q := by
        rw [leadBS_replicate_append, hm]
        omega
      rcases Nat.eq_zero_or_pos q with hq0 | hqpos
      · subst hq0
        rw [List.replicate_zero, List.nil_append] at hlead ⊢
        have hcond : (('\\' : Char) == '\\' && decide (1 ≤ leadBS m)) = false := by
          rw [hm]
          decide
        simp only [reSubFuel, hcond, Bool.false_eq_true, if_false]
        have hr : reSubFuel f m = runReduce 0 m := by
          have h0 : List.replicate 0 '\\' ++ m = m := by simp
          rw [← h0]
          apply ih 0 m hm
          omega
        rw [hr, runReduce_one hm]
      · have hcondq : decide (1 ≤ q) = true := decide_eq_true (by omega)
        have hdrop : (List.replicate q '\\' ++ m).drop q = m :=
          List.drop_left' (List.length_replicate q '\\')
        simp only [reSubFuel, hlead, hdrop, hcondq, beq_self_eq_true, Bool.and_self,
          eq_self_iff_true, if_true]
        cases m with
        | nil =>
          have hr : reSubFuel f (List.replicate q '\\' ++ []) = runReduce q [] := by
            apply ih q [] rfl
            simp only [List.length_nil] at hf ⊢
            omega
          rw [hr]
          simp [runReduce, List.replicate_succ]
        | cons b r2 =>
          have hb : (b == '\\') = false := by
            simp only [leadBS] at hm
            by_contra hbb
            rw [Bool.not_eq_false] at hbb
            rw [hbb] at hm
            simp at hm
          show (if (b == '[' || b == '(') = true then
              List.replicate q '\\' ++ b :: reSubFuel f r2
            else '\\' :: reSubFuel f (List.replicate q '\\' ++ b :: r2)) =
            runReduce (q + 1) (b :: r2)
          by_cases hbr : (b == '[' || b == '(') = true
          · rw [if_pos hbr]
            obtain ⟨hdec2, hzero2⟩ := leadBS_decomp r2
            have hlen2 : leadBS r2 + (r2.drop (leadBS r2)).length = r2.length := by
              have h2 := congrArg List.length hdec2
              simpa using h2
            have hr : reSubFuel f r2 = runReduce 0 r2 := by
              calc reSubFuel f r2
                  = reSubFuel f (List.replicate (leadBS r2) '\\' ++ r2.drop (leadBS r2)) := by
                    rw [hdec2]
                _ = runReduce (leadBS r2) (r2.drop (leadBS r2)) := by
                    apply ih _ _ hzero2
                    simp only [List.length_cons] at hf
                    omega
                _ = runReduce 0 r2 := by
                    conv_rhs => rw [← hdec2]
                    rw [runReduce_peel]
                    simp
            rw [hr, runReduce_cons_br (q + 1) b r2 hb hbr (by omega)]
            simp
          · rw [if_neg hbr]
            have hr : reSubFuel f (List.replicate q '\\' ++ b :: r2) = runReduce q (b :: r2) := by
              apply ih q (b :: r2) hm
              simp only [List.length_cons] at hf ⊢
              omega
            rw [hr]
            have hbr2 : (b == '[' || b == '(') = false := by
              rw [Bool.not_eq_true] at hbr
              exact hbr
            rw [runReduce_cons_nb q b r2 hb hbr2,
                runReduce_cons_nb (q + 1) b r2 hb hbr2]
            rw [List.replicate_succ, List.cons_append]

theorem reSubLine_eq_runReduce (l : List Char) : reSubLine l = runReduce 0 l := by
  obtain ⟨hdec, hzero⟩ := leadBS_decomp l
  have hlen : leadBS l + (l.drop (leadBS l)).length = l.length := by
    have h2 := congrArg List.length hdec
    simpa using h2
  calc reSubLine l
      = reSubFuel l.length (List.replicate (leadBS l) '\\' ++ l.drop (leadBS l)) := by
        unfold reSubLine
        rw [hdec]
    _ = runReduce (leadBS l) (l.drop (leadBS l)) :=
        reSubFuel_eq_runReduce l.length (leadBS l) _ hzero (by omega)
    _ = runReduce 0 l := by
        conv_rhs => rw [← hdec]
        rw [runReduce_peel]
        simp

/- ### Math-primitive failure handling (emitter retry / fallback). -/

/-- C4 (amended): when the first math-primitive attempt on a contentful
formula fails, exactly one retry is made with every double backslash
collapsed to a single one and the result stripped; if that retry also
fails, the collapsed-and-stripped formula (not the raw original) is
rendered through the markup primitive as a backquoted inline literal; the
failure is never propagated and the following blocks are still rendered. -/
theorem C4_math_retry_and_fallback (ok : List Char → Bool) (c : List Char)
    (rest : List (BKind × List Char))
    (hc : has_real_content c = true) (hfail : ok c = false) :
    renderBlock ok (BKind.bmath, c) =
      (if ok (stripChars (collapseBS c)) then
        [Call.latex c, Call.latex (stripChars (collapseBS c))]
      else [Call.latex c, Call.latex (stripChars (collapseBS c)),
            Call.md (btickC :: stripChars (collapseBS c) ++ [btickC])]) ∧
    renderList ok ((BKind.bmath, c) :: rest) =
      renderBlock ok (BKind.bmath, c) ++ renderList ok rest := by
  have hcf : has_real_content (stripChars (collapseBS c)) = true :=
    has_real_content_stripChars (has_real_content_collapseBS c hc)
  constructor
  · simp only [renderBlock, hc, if_true, hfail, Bool.false_eq_true, if_false, hcf]
  · rfl

/-- Witness for C4 at a concrete formula containing a double backslash,
with a rendering surface that always fails. -/
theorem C4_witness :
    renderBlock (fun _ => false) (BKind.bmath, strC "x \\\\ y") =
      (if (fun _ => false : List Char → Bool) (stripChars (collapseBS (strC "x \\\\ y"))) then
        [Call.latex (strC "x \\\\ y"), Call.latex (stripChars (collapseBS (strC "x \\\\ y")))]
      else [Call.latex (strC "x \\\\ y"), Call.latex (stripChars (collapseBS (strC "x \\\\ y"))),
            Call.md (btickC :: stripChars (collapseBS (strC "x \\\\ y")) ++ [btickC])]) ∧
    renderList (fun _ => false) ((BKind.bmath, strC "x \\\\ y") :: []) =
      renderBlock (fun _ => false) (BKind.bmath, strC "x \\\\ y") ++
        renderList (fun _ => false) [] :=
  C4_math_retry_and_fallback (fun _ => false) (strC "x \\\\ y") [] (by decide) rfl

/-- C4 counterexample: the double-failure fallback does not render the raw
untouched formula; on `x \\ y` (runtime characters) with an always-failing
math primitive, the emitted markup literal is not the backquoted raw
formula claimed. -/
theorem C4_fallback_uses_collapsed_not_raw :
    renderBlock (fun _ => false) (BKind.bmath, strC "x \\\\ y") ≠
      [Call.latex (strC "x \\\\ y"), Call.latex (strC "x \\ y"),
       Call.md (btickC :: strC "x \\\\ y" ++ [btickC])] := by decide

/- ### The worked examples of the specification. -/

/-- C3: the flagship example input produces exactly a TextBlock, a
MathBlock, and a TextBlock with the stated payloads. -/
theorem C3_worked_example :
    render_text_with_latex (fun _ => true)
      (strC "Solve $x+1=2$ then\n\n$$\\int_0^1 x\\,dx = \\frac{1}{2}$$\n\nDone.") =
      [Call.md (strC "Solve $x+1=2$ then"),
       Call.latex (strC "\\int_0^1 x\\,dx = \\frac{1}{2}"),
       Call.md (strC "Done.")] := by decide

/-- C5 (amended): on `"$$   $$"` the whitespace-only block candidate is
dropped and no span is accepted, but the no-span fallback then renders the
whole raw text: exactly one markup call with payload `"$$   $$"`, and no
math call. -/
theorem C5_whitespace_block_fallback :
    filtered_matches (normalizeText (strC "$$   $$")) = [] ∧
    render_text_with_latex (fun _ => true) (strC "$$   $$") =
      [Call.md (strC "$$   $$")] := by decide

/-- C5 counterexample: the pipeline does not make zero render calls on
`"$$   $$"`. -/
theorem C5_not_zero_calls :
    render_text_with_latex (fun _ => true) (strC "$$   $$") ≠ [] := by decide

/-- C6 (amended): on `"\( $x$ \)"` the inner dollar span is collected as a
candidate and then discarded as overlapping; the earlier-starting
backslash-paren span is accepted — but it is an inline span with trimmed
content `"$x$"`, so the pipeline re-serializes it into a text buffer and
emits exactly one markup call with payload `"$$x$$"` and no MathBlock. -/
theorem C6_paren_span_wins_as_text :
    (⟨3, 6, MKind.minline, strC "x"⟩ : Span) ∈
      all_matches (normalizeText (strC "\\( $x$ \\)")) ∧
    filtered_matches (normalizeText (strC "\\( $x$ \\)")) =
      [⟨0, 9, MKind.minline, strC "$x$"⟩] ∧
    render_text_with_latex (fun _ => true) (strC "\\( $x$ \\)") =
      [Call.md (strC "$$x$$")] := by decide

/-- C6 counterexample: the pipeline does not emit a lone MathBlock `"x"`
on `"\( $x$ \)"`. -/
theorem C6_not_mathblock :
    render_text_with_latex (fun _ => true) (strC "\\( $x$ \\)") ≠
      [Call.latex (strC "x")] := by decide

/-- C7 (amended): the per-line normalization equals the stated rule —
every run of two or more consecutive backslashes directly followed by `[`
or `(` is reduced by exactly one backslash and nothing else changes — but
since the rule does not touch runs before `]`, the input `\\[ a=b \\]`
(two backslashes before each bracket) normalizes to `\[ a=b \\]` and
yields one MathBlock whose content is `a=b \` (with a stray trailing
backslash), not `a=b`. -/
theorem C7_normalizer_rule_and_example :
    (∀ l : List Char, reSubLine l = runReduce 0 l) ∧
    render_text_with_latex (fun _ => true) (strC "\\\\[ a=b \\\\]") =
      [Call.latex (strC "a=b \\")] :=
  ⟨reSubLine_eq_runReduce, by decide⟩

/-- C7 counterexample: the example input does not produce the MathBlock
`"a=b"` stated by the claim. -/
theorem C7_example_not_clean :
    render_text_with_latex (fun _ => true) (strC "\\\\[ a=b \\\\]") ≠
      [Call.latex (strC "a=b")] := by decide

/-- C9 (amended): on the worked example of the specification the
serialization of the output blocks reproduces the input exactly, so
re-running the pipeline on the reconstruction yields the same block
sequence; idempotence holds for such reconstruction-faithful inputs. -/
theorem C9_idempotent_on_reconstructible_example :
    reconstructBlocks (outBlocks
        (strC "Solve $x+1=2$ then\n\n$$\\int_0^1 x\\,dx = \\frac{1}{2}$$\n\nDone.")) =
      strC "Solve $x+1=2$ then\n\n$$\\int_0^1 x\\,dx = \\frac{1}{2}$$\n\nDone." ∧
    outBlocks (reconstructBlocks (outBlocks
        (strC "Solve $x+1=2$ then\n\n$$\\int_0^1 x\\,dx = \\frac{1}{2}$$\n\nDone."))) =
      outBlocks (strC "Solve $x+1=2$ then\n\n$$\\int_0^1 x\\,dx = \\frac{1}{2}$$\n\nDone.") := by
  decide

/-- C9 counterexample: on `"\( $x$ \)"` the first run produces one
TextBlock (`"$$x$$"`), whose reconstruction re-classifies as one MathBlock
(`"x"`), so the second run's type classification differs from the first. -/
theorem C9_not_idempotent :
    (outBlocks (reconstructBlocks (outBlocks (strC "\\( $x$ \\)")))).map Prod.fst ≠
      (outBlocks (strC "\\( $x$ \\)")).map Prod.fst := by decide
